import Mathlib

/-!
A verification development for the Rux OS user-space shell
(`src/userspace/cshell/src/shell.c`).  The C functions are embedded
shallowly: C strings become `List Char`, the bounded buffers and the
argument array become explicit functional models, and the interactions
with the kernel (fork, waitpid, open, read, write, opendir) are driven
by explicit oracle parameters so that every definition stays executable.
-/

namespace Rux

/-- Strings are modelled as lists of characters (the bytes of a C string
without its terminator; where the presence of the terminator matters it is
tracked explicitly). -/
abbrev Str := List Char

/-- The delimiter set of the `strtok(cmd, " \t\n")` calls in
`execute_command`. -/
def isDelim (c : Char) : Bool := c == ' ' || c == '\t' || c == '\n'

/-- The leading-whitespace skip at the top of `execute_command` checks
only space and tab (`*cmd == ' ' || *cmd == '\t'`). -/
def isSpTab (c : Char) : Bool := c == ' ' || c == '\t'

/-- The strtok loop of `execute_command`, scanning the buffer one byte at
a time: runs of delimiter bytes separate tokens; `cur` holds the bytes of
the token being scanned, in reverse. -/
def strtokGo : List Char → List Char → List Str
  | [], cur => if cur = [] then [] else [cur.reverse]
  | c :: cs, cur =>
    if isDelim c then
      if cur = [] then strtokGo cs [] else cur.reverse :: strtokGo cs []
    else strtokGo cs (c :: cur)

/-- All tokens produced by the strtok loop of `execute_command` (before
the `MAX_ARGS - 1` truncation). -/
def tokenize (s : Str) : List Str := strtokGo s []

/-- Spec-side splitter, written from the words of the spec: split the line on
the delimiter characters and keep the nonempty pieces, i.e. split on runs
of space/tab/newline. -/
def specTokens (s : Str) : List Str := (s.splitOnP isDelim).filter (· ≠ [])

/-- The constant `MAX_ARGS` from shell.c. -/
def MAX_ARGS : Nat := 16

/-- The token list stored into `args` by the parsing loop of
`execute_command`: skip leading space/tab, return nothing on empty, then
collect at most `MAX_ARGS - 1` strtok tokens. -/
def cshellArgs (cmd : Str) : List Str :=
  let c1 := cmd.dropWhile isSpTab
  if c1 = [] then []
  else (tokenize c1).take (MAX_ARGS - 1)

/-- The C array `char *args[MAX_ARGS]`: a slot is `none` while still
uninitialised, `some v` once written, where `v = none` models the NULL
sentinel and `v = some t` a pointer to token `t`. -/
def ArgArray := Nat → Option (Option Str)

def writeSlot (a : ArgArray) (i : Nat) (v : Option Str) : ArgArray :=
  fun j => if j = i then some v else a j

def initArgs : ArgArray := fun _ => none

/-- The filling loop of `execute_command`: tokens are written at indices
`i, i+1, ...` and the NULL sentinel is written right after the last. -/
def fillArgs (a : ArgArray) (i : Nat) : List Str → ArgArray
  | [] => writeSlot a i none
  | t :: ts => fillArgs (writeSlot a i (some t)) (i + 1) ts

/-- The argument array after `execute_command` has parsed one line: the
early return at the `*cmd == chr 0` check fires on an empty or
all-space/tab line before the array is ever touched, so it stays fully
uninitialised there; otherwise the parsing loop runs, filling the tokens
and then writing the NULL sentinel right after them. -/
def argArrayOf (cmd : Str) : ArgArray :=
  if cmd.dropWhile isSpTab = [] then initArgs
  else fillArgs initArgs 0 (cshellArgs cmd)

/-- The fixed 256-byte path buffer after the copy in `execute_command`:
the bytes written into it, and whether a NUL terminator is guaranteed to
sit inside the buffer.  `strncpy(path, src, sizeof(path) - 1)` writes no
terminator when the source holds 255 bytes or more, and `path[255]` is
never initialised, so in that case the buffer need not be a well-formed
C string. -/
structure PathBuf where
  chars : Str
  terminated : Bool
  deriving DecidableEq, Repr

/-- Model of `strncpy(path, src, 255)` into the fresh 256-byte buffer:
at most 255 bytes are copied; a terminator is guaranteed only when the
source is shorter than 255 bytes. -/
def strncpy255 (src : Str) : PathBuf :=
  ⟨src.take 255, decide (src.length < 255)⟩

/-- Model of `snprintf(path, 256, "/bin/%s", tok)`: output truncated to
255 bytes and always NUL-terminated. -/
def snprintf256 (s : Str) : PathBuf := ⟨s.take 255, true⟩

def binDir : Str := "/bin/".toList

/-- The path-resolution step at the bottom of `execute_command`: a first
byte of `/` or `.` means the token is copied as a literal path, anything
else is prefixed with the search directory. -/
def resolvePath (tok : Str) : PathBuf :=
  if tok.head? = some '/' ∨ tok.head? = some '.' then strncpy255 tok
  else snprintf256 (binDir ++ tok)

/-- The routing decision `execute_command` makes for one line. -/
inductive Action where
  | noop : Action
  | echo (rest : List Str) : Action
  | help : Action
  | exitShell : Action
  | timeCmd : Action
  | pidCmd : Action
  | ls (arg : Option Str) : Action
  | cat (arg : Option Str) : Action
  | external (path : PathBuf) (argv : List Str) : Action
  deriving DecidableEq, Repr

/-- The built-in dispatch chain of `execute_command`, in source order:
`echo`, `help`, `exit`|`quit`, `time`, `pid`, `ls`, `cat`, each an exact
strcmp on the first token, and the fall-through to the external-program
path. -/
def dispatch (a0 : Str) (rest : List Str) : Action :=
  if a0 = "echo".toList then .echo rest
  else if a0 = "help".toList then .help
  else if a0 = "exit".toList ∨ a0 = "quit".toList then .exitShell
  else if a0 = "time".toList then .timeCmd
  else if a0 = "pid".toList then .pidCmd
  else if a0 = "ls".toList then .ls rest.head?
  else if a0 = "cat".toList then .cat rest.head?
  else .external (resolvePath a0) (a0 :: rest)

/-- The routing of `execute_command` for a raw line: skip leading space/tab,
return on empty, tokenise into at most `MAX_ARGS - 1` tokens, return on
zero tokens, else dispatch on the first token. -/
def cmdAction (cmd : Str) : Action :=
  match cshellArgs cmd with
  | [] => .noop
  | a0 :: rest => dispatch a0 rest

/-- The printing loop of the `echo` built-in in `execute_command`: print
each remaining token, a single space between consecutive tokens, then one
newline. -/
def echoOutput : List Str → Str
  | [] => ['\n']
  | [x] => x ++ ['\n']
  | x :: y :: t => x ++ ' ' :: echoOutput (y :: t)

/-- Events of `run_external` as the parent process sees them. -/
inductive PEvent where
  | forkCall : PEvent
  | msg (s : Str) : PEvent
  | waitCall (pid : Nat) : PEvent
  deriving DecidableEq, Repr

def PEvent.isFork : PEvent → Bool
  | .forkCall => true
  | _ => false

def PEvent.isWait : PEvent → Bool
  | .waitCall _ => true
  | _ => false

/-- Function `run_external` from shell.c, as executed by the parent process.  The
answer of the kernel to `fork()` is `none` for a failed fork (negative
return) and `some pid` for the parent branch; the child branch runs in
the child process and has no events in the trace of the parent.
`childStatus` is the value `waitpid` would store through its status
pointer; the code discards it.  Returns the C return value and the event
trace in order. -/
def run_external (fr : Option Nat) (childStatus : Int) : Int × List PEvent :=
  match fr with
  | none => (-1, [.forkCall, .msg ("fork failed\n".toList)])
  | some pid =>
    let _ := childStatus
    (0, [.forkCall, .waitCall pid])

/-- A directory entry as `readdir` yields it: name and `d_type` tag. -/
structure DirEnt where
  dname : Str
  dtype : Nat
  deriving DecidableEq, Repr

/-- The `d_type` to indicator-character switch in `cmd_ls` (Linux values
DT_FIFO=1, DT_CHR=2, DT_DIR=4, DT_BLK=6, DT_REG=8, DT_LNK=10,
DT_SOCK=12; anything else prints `?`). -/
def typeChar (t : Nat) : Char :=
  if t = 4 then 'd'
  else if t = 8 then '-'
  else if t = 10 then 'l'
  else if t = 6 then 'b'
  else if t = 2 then 'c'
  else if t = 1 then 'p'
  else if t = 12 then 's'
  else '?'

/-- Decimal rendering of a value printed with `%d`. -/
def natStr (n : Nat) : Str := (Nat.repr n).toList

/-- The error line `cmd_ls` prints when `opendir` fails. -/
def lsErrLine (path : Str) (e : Nat) : Str :=
  "ls: cannot open directory '".toList ++ path ++ "': ".toList ++
    natStr e ++ ['\n']

/-- The header line `cmd_ls` prints on success. -/
def lsHeader (path : Str) : Str :=
  "Contents of ".toList ++ path ++ [':', '\n']

/-- One per-entry line of `cmd_ls` (`"  %c %s\n"`). -/
def lsEntryLine (en : DirEnt) : Str :=
  ' ' :: ' ' :: typeChar en.dtype :: ' ' :: (en.dname ++ ['\n'])

def dotPath : Str := ['.']

/-- Function `cmd_ls` from shell.c: default the path to `"."`, consult the
answer of the kernel to `opendir`, and either print a single error line and
return, or print the header and one line per entry.  The output is the
list of printed lines, in order. -/
def cmd_ls (dirname : Option Str) (openR : Except Nat (List DirEnt)) :
    List Str :=
  let path := dirname.getD dotPath
  match openR with
  | .error e => [lsErrLine path e]
  | .ok entries => lsHeader path :: entries.map lsEntryLine

/-- One kernel response to a `read(fd, buf, 512)` call in `cmd_cat`: a
successful read (which yields the next `min 512 remaining` bytes of the
file, zero bytes at end of file) or a failure with an errno. -/
inductive RResp where
  | rok : RResp
  | rerr (e : Nat) : RResp
  deriving DecidableEq, Repr

/-- One kernel response to a `write(STDOUT_FILENO, ..., k)` call: the
number of bytes accepted (clipped to at most `k` by the model, as the
kernel never writes more than requested) or a failure with an errno. -/
inductive WResp where
  | wok (n : Nat) : WResp
  | werr (e : Nat) : WResp
  deriving DecidableEq, Repr

/-- The inner loop of `cmd_cat`: keep calling `write` until the whole
chunk is flushed.  One response is consumed per call.  Returns the bytes
actually written to stdout, `some e` when a write failed with errno `e`
(`none` on success), and the unused responses; the overall result is
`none` when the response list runs out before the loop finishes. -/
def writeChunk : List WResp → Str → Option (Str × Option Nat × List WResp)
  | ws, [] => some ([], none, ws)
  | [], _ :: _ => none
  | .werr e :: ws, _ :: _ => some ([], some e, ws)
  | .wok n :: ws, d :: ds =>
    let k := min n (d :: ds).length
    match writeChunk ws ((d :: ds).drop k) with
    | none => none
    | some (out, r, ws2) => some ((d :: ds).take k ++ out, r, ws2)

/-- Result of the read/write loop of `cmd_cat`: bytes written to stdout,
error messages printed, and whether `close(fd)` ran. -/
structure CatRun where
  written : Str
  msgs : List Str
  closed : Bool
  deriving DecidableEq, Repr

/-- The message `printf("\ncat: write error: %d\n", errno)` prints. -/
def catErrWrite (e : Nat) : Str :=
  '\n' :: ("cat: write error: ".toList ++ natStr e ++ ['\n'])

/-- The message `printf("\ncat: read error: %d\n", errno)` prints. -/
def catErrRead (e : Nat) : Str :=
  '\n' :: ("cat: read error: ".toList ++ natStr e ++ ['\n'])

/-- The outer loop of `cmd_cat` together with the `close(fd)` on each of
its exit paths.  One read response is consumed per `read` call; a
successful read yields the next `min 512 remaining` bytes of the file; a
zero-byte read is end of file and ends the loop normally; a failed write
aborts the transfer, prints the write-error message and closes; a failed
read prints the read-error message and closes. -/
def catLoop : List RResp → Str → List WResp → Option CatRun
  | [], _, _ => none
  | .rerr e :: _, _, _ => some ⟨[], [catErrRead e], true⟩
  | .rok :: rs, file, ws =>
    if file = [] then some ⟨[], [], true⟩
    else
      match writeChunk ws (file.take 512) with
      | none => none
      | some (out, some e, _) => some ⟨out, [catErrWrite e], true⟩
      | some (out, none, ws2) =>
        match catLoop rs (file.drop 512) ws2 with
        | none => none
        | some r => some ⟨out ++ r.written, r.msgs, r.closed⟩

def catUsage1 : Str := "cat: missing file operand\n".toList

def catUsage2 : Str := "Usage: cat <filename>\n".toList

/-- The message `printf("cat: cannot open '%s': %d\n", filename, errno)`
prints. -/
def catOpenErr (f : Str) (e : Nat) : Str :=
  "cat: cannot open '".toList ++ f ++ "': ".toList ++ natStr e ++ ['\n']

/-- Full result of one `cmd_cat` call: the printf lines in order, the
bytes written to stdout, the number of successful `open` calls and the
number of `close` calls. -/
structure CatResult where
  msgs : List Str
  written : Str
  openCalls : Nat
  closeCalls : Nat
  deriving DecidableEq, Repr

/-- Function `cmd_cat` from shell.c: a missing operand prints the usage lines and
returns without touching the filesystem; a failed open prints the path
and errno and returns; otherwise the read/write loop runs on the open
descriptor. -/
def cmd_cat (filename : Option Str) (openR : Except Nat Unit) (file : Str)
    (rs : List RResp) (ws : List WResp) : Option CatResult :=
  match filename with
  | none => some ⟨[catUsage1, catUsage2], [], 0, 0⟩
  | some f =>
    match openR with
    | .error e => some ⟨[catOpenErr f e], [], 0, 0⟩
    | .ok _ =>
      match catLoop rs file ws with
      | none => none
      | some r => some ⟨r.msgs, r.written, 1, if r.closed then 1 else 0⟩

/-- The byte-consuming core of one `fgets(cmd, 256, stdin)` call: read
bytes up to and including the first newline, but at most `n` bytes. -/
def takeLine255 : Nat → List Char → Str
  | 0, _ => []
  | _, [] => []
  | n + 1, c :: cs => if c = '\n' then [c] else c :: takeLine255 n cs

/-- One `fgets(cmd, sizeof(cmd), stdin)` call with `sizeof(cmd) = 256`:
`none` at end of input (fgets returns NULL), otherwise the at most 255
bytes read and the input that remains for later calls. -/
def fgets255 (input : List Char) : Option (Str × List Char) :=
  match input with
  | [] => none
  | _ :: _ =>
    let chunk := takeLine255 255 input
    some (chunk, input.drop chunk.length)

/-- The trailing-newline strip in `main` (`cmd[len-1] == '\n'`). -/
def stripNL (c : Str) : Str :=
  if c.getLast? = some '\n' then c.dropLast else c

/-- How the read-eval loop ends: end of input (`main` falls out of the
loop and returns 0), or the exit builtin (`exit(0)`). -/
inductive Outcome where
  | eofEnd : Outcome
  | exited (code : Nat) : Outcome
  deriving DecidableEq, Repr

/-- The exit status of the shell process for each outcome. -/
def processStatus : Outcome → Nat
  | .eofEnd => 0
  | .exited c => c

/-- Whether `execute_command` on this line runs the `exit`|`quit`
builtin. -/
def isExitCmd (cmd : Str) : Bool :=
  match cmdAction cmd with
  | .exitShell => true
  | _ => false

/-- The farewell line the exit builtin prints right before `exit(0)`. -/
def farewell : Str := "Goodbye!\n".toList

/-- The observable run of the read-eval loop: the commands executed in
order, the farewell lines printed, and the outcome. -/
structure LoopRun where
  cmds : List Str
  bye : List Str
  outcome : Outcome
  deriving DecidableEq, Repr

/-- The read-eval loop of `main`, fuelled by the number of remaining
input bytes (each iteration consumes at least one byte, so a fuel of
`input.length` is exact): prompt, fgets, strip the trailing newline if
one was read, execute; the exit builtin prints the farewell and leaves
with `exit(0)`; end of input leaves the loop and `main` returns 0. -/
def shellGo : Nat → List Char → LoopRun
  | 0, _ => ⟨[], [], .eofEnd⟩
  | fuel + 1, input =>
    match fgets255 input with
    | none => ⟨[], [], .eofEnd⟩
    | some (chunk, rest) =>
      let cmd := stripNL chunk
      if isExitCmd cmd then ⟨[cmd], [farewell], .exited 0⟩
      else
        let r := shellGo fuel rest
        ⟨cmd :: r.cmds, r.bye, r.outcome⟩

/-- The whole shell session on a finite standard-input byte stream. -/
def shellRun (input : List Char) : LoopRun := shellGo input.length input

/-- The behaviour C5 asserts of a finished loop run. -/
def loopOk (r : LoopRun) : Prop :=
  processStatus r.outcome = 0 ∧
  (r.outcome = .eofEnd ∨ r.outcome = .exited 0) ∧
  (r.outcome = .exited 0 ↔
    ∃ cmd, r.cmds.getLast? = some cmd ∧ isExitCmd cmd = true) ∧
  (∀ cmd ∈ r.cmds.dropLast, isExitCmd cmd = false) ∧
  r.bye = (if r.outcome = .exited 0 then [farewell] else [])

theorem strtokGo_eq (s : Str) : ∀ cur : List Char,
    strtokGo s cur =
      ((s.splitOnP isDelim).modifyHead (fun t => cur.reverse ++ t)).filter
        (· ≠ []) := by
  induction s with
  | nil =>
    intro cur
    by_cases h : cur = [] <;>
      simp [strtokGo, List.splitOnP_nil, List.modifyHead, List.filter_cons, h]
  | cons c cs ih =>
    intro cur
    rcases h : cs.splitOnP isDelim with _ | ⟨q, qs⟩
    · exact absurd h (List.splitOnP_ne_nil _ _)
    · by_cases hc : isDelim c
      · have hsplit : (c :: cs).splitOnP isDelim = [] :: cs.splitOnP isDelim := by
          rw [List.splitOnP_cons, if_pos hc]
        by_cases hcur : cur = []
        · simp [strtokGo, hc, hcur, hsplit, h, ih, List.filter_cons]
        · have hrev : cur.reverse ≠ [] := by simpa using hcur
          simp [strtokGo, hc, hcur, hsplit, h, ih, List.filter_cons, hrev]
      · have hsplit : (c :: cs).splitOnP isDelim =
            (cs.splitOnP isDelim).modifyHead (List.cons c) := by
          rw [List.splitOnP_cons, if_neg hc]
        have hne : cur.reverse ++ c :: q ≠ [] := by simp
        simp only [strtokGo, hc, if_neg, hsplit, h, List.modifyHead]
        rw [ih (c :: cur)]
        simp [h, List.filter_cons, hne, List.modifyHead]

theorem tokenize_eq_specTokens (s : Str) : tokenize s = specTokens s := by
  have h := strtokGo_eq s []
  rcases hs : s.splitOnP isDelim with _ | ⟨q, qs⟩
  · exact absurd hs (List.splitOnP_ne_nil _ _)
  · simpa [tokenize, specTokens, hs, List.modifyHead] using h

theorem tokenize_dropWhile_spTab (s : Str) :
    tokenize (s.dropWhile isSpTab) = tokenize s := by
  induction s with
  | nil => rfl
  | cons c cs ih =>
    by_cases h : isSpTab c = true
    · have hd : isDelim c = true := by
        simp only [isSpTab, Bool.or_eq_true, beq_iff_eq] at h
        rcases h with h | h <;> simp [isDelim, h]
      rw [List.dropWhile_cons, if_pos h, ih]
      show tokenize cs = strtokGo (c :: cs) []
      simp [strtokGo, hd, tokenize]
    · rw [List.dropWhile_cons, if_neg h]

theorem fillArgs_lt (ts : List Str) : ∀ (a : ArgArray) (i j : Nat), j < i →
    fillArgs a i ts j = a j := by
  induction ts with
  | nil =>
    intro a i j h
    simp [fillArgs, writeSlot, Nat.ne_of_lt h]
  | cons t ts ih =>
    intro a i j h
    rw [fillArgs, ih _ _ _ (Nat.lt_succ_of_lt h)]
    simp [writeSlot, Nat.ne_of_lt h]

theorem fillArgs_get (ts : List Str) : ∀ (a : ArgArray) (i k : Nat)
    (h : k < ts.length),
    fillArgs a i ts (i + k) = some (some (ts.get ⟨k, h⟩)) := by
  induction ts with
  | nil => intro a i k h; exact absurd h (by simp)
  | cons t ts ih =>
    intro a i k h
    cases k with
    | zero =>
      have h0 : i + 0 = i := rfl
      rw [fillArgs, h0, fillArgs_lt ts _ _ _ (by omega : i < i + 1)]
      simp [writeSlot]
    | succ k =>
      have hk : k < ts.length := Nat.lt_of_succ_lt_succ h
      have hidx : i + (k + 1) = (i + 1) + k := by omega
      rw [fillArgs, hidx, ih (writeSlot a i (some t)) (i + 1) k hk]
      rfl

theorem fillArgs_sentinel (ts : List Str) : ∀ (a : ArgArray) (i : Nat),
    fillArgs a i ts (i + ts.length) = some none := by
  induction ts with
  | nil => intro a i; simp [fillArgs, writeSlot]
  | cons t ts ih =>
    intro a i
    have hidx : i + (t :: ts).length = (i + 1) + ts.length := by
      simp [List.length_cons]; omega
    rw [fillArgs, hidx]
    exact ih _ _

theorem cshellArgs_eq_specTokens (cmd : Str)
    (h : (specTokens cmd).length ≤ 15) : cshellArgs cmd = specTokens cmd := by
  unfold cshellArgs
  by_cases hc : cmd.dropWhile isSpTab = []
  · rw [if_pos hc]
    have h1 : tokenize cmd = [] := by
      rw [← tokenize_dropWhile_spTab, hc]; rfl
    rw [← tokenize_eq_specTokens, h1]
  · rw [if_neg hc, tokenize_dropWhile_spTab, tokenize_eq_specTokens]
    exact List.take_of_length_le h

/-- C1: for a line with at most 15 whitespace-delimited tokens, the
parsing loop of `execute_command` stores exactly the tokens obtained by
stripping leading space/tab and splitting on runs of space/tab/newline,
in order; whenever the parsing loop runs at all (the line is not empty
or all space/tab), the array slot right after the last token holds the
NULL sentinel; an empty or all-whitespace line yields zero tokens, the
early return fires before the array is ever written, and the command is
a no-op. -/
theorem spec2proof_c1 (cmd : Str) (h : (specTokens cmd).length ≤ 15) :
    cshellArgs cmd = specTokens cmd ∧
    (∀ i (hi : i < (specTokens cmd).length),
      argArrayOf cmd i = some (some ((specTokens cmd).get ⟨i, hi⟩))) ∧
    (cmd.dropWhile isSpTab ≠ [] →
      argArrayOf cmd ((specTokens cmd).length) = some none) ∧
    (cmd.dropWhile isSpTab = [] → ∀ j, argArrayOf cmd j = none) ∧
    (specTokens cmd = [] → cmdAction cmd = .noop) := by
  have hargs := cshellArgs_eq_specTokens cmd h
  by_cases hd : cmd.dropWhile isSpTab = []
  · have hnil : specTokens cmd = [] := by
      rw [← tokenize_eq_specTokens, ← tokenize_dropWhile_spTab, hd]
      rfl
    refine ⟨hargs, ?_, ?_, ?_, ?_⟩
    · intro i hi
      rw [hnil] at hi
      exact absurd hi (by simp)
    · intro hcon
      exact absurd hd hcon
    · intro _ j
      simp [argArrayOf, hd, initArgs]
    · intro _
      unfold cmdAction
      rw [hargs, hnil]
  · refine ⟨hargs, ?_, ?_, ?_, ?_⟩
    · intro i hi
      have := fillArgs_get (specTokens cmd) initArgs 0 i hi
      simpa [argArrayOf, hd, hargs] using this
    · intro _
      have := fillArgs_sentinel (specTokens cmd) initArgs 0
      simpa [argArrayOf, hd, hargs] using this
    · intro hdd
      exact absurd hdd hd
    · intro hnil
      unfold cmdAction
      rw [hargs, hnil]

/-- Witness for C1 at the concrete line `"  ls /bin"` (two tokens, the
sentinel at slot 2) and at the all-blank line `"   "` (the early return
leaves the array untouched). -/
theorem spec2proof_c1_witness :
    (specTokens ("  ls /bin".toList)).length ≤ 15 ∧
    cshellArgs ("  ls /bin".toList) = specTokens ("  ls /bin".toList) ∧
    argArrayOf ("  ls /bin".toList) 2 = some none ∧
    argArrayOf ("   ".toList) 0 = none := by
  refine ⟨by decide, (spec2proof_c1 ("  ls /bin".toList) (by decide)).1, ?_, ?_⟩
  · have h := (spec2proof_c1 ("  ls /bin".toList) (by decide)).2.2.1 (by decide)
    simpa using h
  · exact (spec2proof_c1 ("   ".toList) (by decide)).2.2.2.1 (by decide) 0

/-- C2: the dispatch chain of `execute_command` selects the handler by an
exact string match on the first token, in the fixed source order `echo`,
`help`, `exit`|`quit`, `time`, `pid`, `ls`, `cat`; exactly one handler is
selected per line, and a first token equal to none of these names is
routed to path resolution and external-process launch with the full
argument vector. -/
theorem spec2proof_c2 (a0 : Str) (rest : List Str) :
    dispatch ("echo".toList) rest = .echo rest ∧
    dispatch ("help".toList) rest = .help ∧
    dispatch ("exit".toList) rest = .exitShell ∧
    dispatch ("quit".toList) rest = .exitShell ∧
    dispatch ("time".toList) rest = .timeCmd ∧
    dispatch ("pid".toList) rest = .pidCmd ∧
    dispatch ("ls".toList) rest = .ls rest.head? ∧
    dispatch ("cat".toList) rest = .cat rest.head? ∧
    (a0 ∉ ["echo".toList, "help".toList, "exit".toList, "quit".toList,
           "time".toList, "pid".toList, "ls".toList, "cat".toList] →
      dispatch a0 rest = .external (resolvePath a0) (a0 :: rest)) := by
  refine ⟨rfl, rfl, rfl, rfl, rfl, rfl, rfl, rfl, ?_⟩
  intro h
  simp only [List.mem_cons, List.not_mem_nil, or_false, not_or] at h
  obtain ⟨h1, h2, h3, h4, h5, h6, h7, h8⟩ := h
  simp only [dispatch]
  rw [if_neg h1, if_neg h2, if_neg (not_or.mpr ⟨h3, h4⟩), if_neg h5, if_neg h6,
    if_neg h7, if_neg h8]

/-- Witness for C2: the unmatched name `foo` goes to the external path. -/
theorem spec2proof_c2_witness :
    dispatch ("foo".toList) [] =
      .external (resolvePath ("foo".toList)) ["foo".toList] := by
  exact (spec2proof_c2 ("foo".toList) []).2.2.2.2.2.2.2.2 (by decide)

set_option maxRecDepth 10000 in
/-- Counterexample to C3 as stated: a literal-path token of 255 bytes
(the longest a 256-byte command line can hold) is copied without any NUL
terminator, so the path buffer is not a well-formed terminated string;
and a bare 255-byte name makes `snprintf` truncate, so the resolved path
is not `/bin/` followed by the token. -/
theorem spec2proof_c3_counterexample :
    (resolvePath ('/' :: List.replicate 254 'a')).terminated = false ∧
    (resolvePath ('x' :: List.replicate 254 'x')).chars ≠
      binDir ++ 'x' :: List.replicate 254 'x' := by
  constructor
  · decide
  · decide

/-- C3 amended: a first token starting with `/` or `.` is copied into the
path buffer truncated to its first 255 bytes, and a NUL terminator is
guaranteed exactly when the token is shorter than 255 bytes — a token of
255 bytes or more may leave the buffer unterminated; any other first
token resolves to the first 255 bytes of `/bin/` ++ token, always
terminated, hence exactly `/bin/` ++ token whenever the token has at most
250 bytes. -/
theorem spec2proof_c3 (tok : Str) (hne : tok ≠ []) :
    ((tok.head? = some '/' ∨ tok.head? = some '.') →
      (resolvePath tok).chars = tok.take 255 ∧
      ((resolvePath tok).terminated = true ↔ tok.length < 255) ∧
      (tok.length < 255 → (resolvePath tok).chars = tok)) ∧
    (¬(tok.head? = some '/' ∨ tok.head? = some '.') →
      (resolvePath tok).chars = (binDir ++ tok).take 255 ∧
      (resolvePath tok).terminated = true ∧
      (tok.length ≤ 250 → (resolvePath tok).chars = binDir ++ tok)) := by
  constructor
  · intro hc
    rw [resolvePath, if_pos hc]
    refine ⟨rfl, by simp [strncpy255], ?_⟩
    intro hlt
    simp [strncpy255]
    omega
  · intro hc
    rw [resolvePath, if_neg hc]
    refine ⟨rfl, rfl, ?_⟩
    intro hle
    have hlen : (binDir ++ tok).length ≤ 255 := by
      simp [binDir]
      omega
    simpa [snprintf256] using List.take_of_length_le hlen

/-- Witness for C3 at the tokens `./a` and `sh`. -/
theorem spec2proof_c3_witness :
    (resolvePath ("./a".toList)).chars = "./a".toList ∧
    (resolvePath ("sh".toList)).chars = binDir ++ "sh".toList ∧
    (resolvePath ("sh".toList)).terminated = true := by
  have h1 := (spec2proof_c3 ("./a".toList) (by decide)).1 (by decide)
  have h2 := (spec2proof_c3 ("sh".toList) (by decide)).2 (by decide)
  exact ⟨h1.2.2 (by decide), h2.2.2 (by decide), h2.2.1⟩

/-- C9: `echo` prints the remaining tokens joined with single spaces,
followed by exactly one newline; in particular the line `echo a b c`
routes to the echo handler with the tokens a, b, c and its output is
exactly `a b c\n`. -/
theorem spec2proof_c9 (rest : List Str) :
    echoOutput rest = (List.intercalate [' '] rest) ++ ['\n'] ∧
    cmdAction ("echo a b c".toList) =
      .echo ["a".toList, "b".toList, "c".toList] ∧
    echoOutput ["a".toList, "b".toList, "c".toList] = "a b c\n".toList := by
  refine ⟨?_, by decide, by decide⟩
  induction rest with
  | nil => simp [echoOutput, List.intercalate]
  | cons x t ih =>
    cases t with
    | nil => simp [echoOutput, List.intercalate]
    | cons y t2 =>
      rw [echoOutput, ih]
      simp [List.intercalate, List.intersperse_cons_cons]

/-- C4: on a successful fork the parent issues exactly one fork and
exactly one wait, the wait targets precisely the pid fork returned, the
wait precedes the return, and the returned value is 0 independently of
the exit status of the child; on fork failure the parent reports the failure,
returns -1, and issues no wait. -/
theorem spec2proof_c4 (pid : Nat) (st st2 : Int) :
    (run_external (some pid) st).1 = 0 ∧
    (run_external (some pid) st).2.filter PEvent.isFork = [.forkCall] ∧
    (run_external (some pid) st).2.filter PEvent.isWait = [.waitCall pid] ∧
    run_external (some pid) st = run_external (some pid) st2 ∧
    (run_external none st).1 = -1 ∧
    (run_external none st).2.filter PEvent.isWait = [] ∧
    (run_external none st).2.filter PEvent.isFork = [.forkCall] ∧
    PEvent.msg ("fork failed\n".toList) ∈ (run_external none st).2 := by
  refine ⟨rfl, rfl, rfl, rfl, rfl, rfl, rfl, ?_⟩
  simp [run_external]

theorem lsEntryLine_ne_lsErrLine (en : DirEnt) (p : Str) (e : Nat) :
    lsEntryLine en ≠ lsErrLine p e := by
  intro h
  have h0 : some ' ' = some 'l' := by
    calc some ' ' = (lsEntryLine en).head? := rfl
    _ = (lsErrLine p e).head? := by rw [h]
    _ = some 'l' := rfl
  exact absurd h0 (by decide)

/-- C8: when `opendir` fails, `cmd_ls` prints exactly one line — the
error line carrying the attempted path and the errno value — prints no
entry line, and returns; the path defaults to `.` when no argument was
given. -/
theorem spec2proof_c8 (dirname : Option Str) (e : Nat) :
    cmd_ls dirname (.error e) = [lsErrLine (dirname.getD dotPath) e] ∧
    (cmd_ls dirname (.error e)).length = 1 ∧
    cmd_ls none (.error e) = [lsErrLine dotPath e] ∧
    (∀ en : DirEnt, lsEntryLine en ∉ cmd_ls dirname (.error e)) := by
  refine ⟨rfl, rfl, rfl, ?_⟩
  intro en hmem
  simp only [cmd_ls, List.mem_singleton] at hmem
  exact lsEntryLine_ne_lsErrLine en _ e hmem

theorem writeChunk_ok : ∀ (ws : List WResp) (data out : Str)
    (ws2 : List WResp), writeChunk ws data = some (out, none, ws2) →
    out = data := by
  intro ws
  induction ws with
  | nil =>
    intro data out ws2 h
    cases data with
    | nil => simp [writeChunk] at h; exact h.1
    | cons d ds => simp [writeChunk] at h
  | cons w ws ih =>
    intro data out ws2 h
    cases data with
    | nil => simp [writeChunk] at h; exact h.1
    | cons d ds =>
      cases w with
      | werr e => simp [writeChunk] at h
      | wok n =>
        rw [writeChunk] at h
        rcases hrec : writeChunk ws ((d :: ds).drop (min n (d :: ds).length))
          with _ | ⟨out1, r1, ws1⟩
        · rw [hrec] at h; exact absurd h (by simp)
        · rw [hrec] at h
          simp only [Option.some.injEq, Prod.mk.injEq] at h
          obtain ⟨hout, hr, hws⟩ := h
          subst hr
          have := ih _ _ _ hrec
          rw [← hout, this, List.take_append_drop]

theorem writeChunk_err : ∀ (ws : List WResp) (data out : Str) (e : Nat)
    (ws2 : List WResp), writeChunk ws data = some (out, some e, ws2) →
    ∃ k, out = data.take k := by
  intro ws
  induction ws with
  | nil =>
    intro data out e ws2 h
    cases data with
    | nil => simp [writeChunk] at h
    | cons d ds => simp [writeChunk] at h
  | cons w ws ih =>
    intro data out e ws2 h
    cases data with
    | nil => simp [writeChunk] at h
    | cons d ds =>
      cases w with
      | werr e2 =>
        simp [writeChunk] at h
        exact ⟨0, h.1⟩
      | wok n =>
        rw [writeChunk] at h
        rcases hrec : writeChunk ws ((d :: ds).drop (min n (d :: ds).length))
          with _ | ⟨out1, r1, ws1⟩
        · rw [hrec] at h; exact absurd h (by simp)
        · rw [hrec] at h
          simp only [Option.some.injEq, Prod.mk.injEq] at h
          obtain ⟨hout, hr, hws⟩ := h
          subst hr
          obtain ⟨k, hk⟩ := ih _ _ _ _ hrec
          refine ⟨min n (d :: ds).length + k, ?_⟩
          rw [← hout, hk, List.take_add]

theorem catLoop_closed : ∀ (rs : List RResp) (file : Str) (ws : List WResp)
    (r : CatRun), catLoop rs file ws = some r → r.closed = true := by
  intro rs
  induction rs with
  | nil => intro file ws r h; exact absurd h (by simp [catLoop])
  | cons rr rs ih =>
    intro file ws r h
    cases rr with
    | rerr e => rw [catLoop] at h; cases h; rfl
    | rok =>
      rw [catLoop] at h
      by_cases hf : file = []
      · rw [if_pos hf] at h; cases h; rfl
      · rw [if_neg hf] at h
        rcases hw : writeChunk ws (file.take 512) with _ | ⟨out, r1, ws2⟩
        · rw [hw] at h; exact absurd h (by simp)
        · rw [hw] at h
          cases r1 with
          | some e => cases h; rfl
          | none =>
            have h2 : (match catLoop rs (file.drop 512) ws2 with
                | none => none
                | some r2 =>
                  some (⟨out ++ r2.written, r2.msgs, r2.closed⟩ : CatRun)) =
                some r := h
            rcases hl : catLoop rs (file.drop 512) ws2 with _ | r2
            · rw [hl] at h2; exact absurd h2 (by simp)
            · rw [hl] at h2
              cases h2
              exact ih _ _ r2 hl

theorem catLoop_written : ∀ (rs : List RResp) (file : Str) (ws : List WResp)
    (r : CatRun), catLoop rs file ws = some r →
    (r.msgs = [] → r.written = file) ∧ (∃ k, r.written = file.take k) := by
  intro rs
  induction rs with
  | nil => intro file ws r h; exact absurd h (by simp [catLoop])
  | cons rr rs ih =>
    intro file ws r h
    cases rr with
    | rerr e =>
      rw [catLoop] at h
      cases h
      exact ⟨fun hm => absurd hm (by simp), ⟨0, rfl⟩⟩
    | rok =>
      rw [catLoop] at h
      by_cases hf : file = []
      · rw [if_pos hf] at h; cases h
        exact ⟨fun _ => hf.symm, ⟨0, by simp⟩⟩
      · rw [if_neg hf] at h
        rcases hw : writeChunk ws (file.take 512) with _ | ⟨out, r1, ws2⟩
        · rw [hw] at h; exact absurd h (by simp)
        · rw [hw] at h
          cases r1 with
          | some e =>
            cases h
            refine ⟨fun hm => absurd hm (by simp), ?_⟩
            obtain ⟨k, hk⟩ := writeChunk_err _ _ _ _ _ hw
            exact ⟨min k 512, by rw [hk, List.take_take]⟩
          | none =>
            have h2 : (match catLoop rs (file.drop 512) ws2 with
                | none => none
                | some r2 =>
                  some (⟨out ++ r2.written, r2.msgs, r2.closed⟩ : CatRun)) =
                some r := h
            rcases hl : catLoop rs (file.drop 512) ws2 with _ | r2
            · rw [hl] at h2; exact absurd h2 (by simp)
            · rw [hl] at h2
              cases h2
              have hout := writeChunk_ok _ _ _ _ hw
              obtain ⟨hfull, k, hk⟩ := ih _ _ _ hl
              constructor
              · intro hm
                show out ++ r2.written = file
                rw [hout, hfull hm, List.take_append_drop]
              · refine ⟨512 + k, ?_⟩
                show out ++ r2.written = file.take (512 + k)
                rw [hout, hk, List.take_add]

/-- C6: whenever the read/write loop of `cmd_cat` completes (the kernel
answered every call it made), the descriptor was closed; if no error
message was printed, the bytes written to stdout are exactly the bytes
of the file, in order; in any case the bytes written are a prefix of the
file (a mid-stream write failure aborts the transfer after a prefix);
and a zero-byte read (end of file) ends the loop normally with nothing
further written and no message. -/
theorem spec2proof_c6 (file : Str) (rs : List RResp) (ws : List WResp)
    (r : CatRun) (h : catLoop rs file ws = some r) :
    r.closed = true ∧
    (r.msgs = [] → r.written = file) ∧
    (∃ k, r.written = file.take k) ∧
    (∀ rs2 : List RResp, catLoop (.rok :: rs2) [] ws = some ⟨[], [], true⟩) := by
  refine ⟨catLoop_closed _ _ _ _ h, (catLoop_written _ _ _ _ h).1,
    (catLoop_written _ _ _ _ h).2, ?_⟩
  intro rs2
  rw [catLoop, if_pos rfl]

/-- Witness for C6: a two-byte file copied whole in one chunk with two
write calls of one byte each, then the zero-byte read ends the loop. -/
theorem spec2proof_c6_witness :
    catLoop [RResp.rok, RResp.rok] ("hi".toList) [WResp.wok 1, WResp.wok 1] =
      some ⟨"hi".toList, [], true⟩ ∧
    (⟨"hi".toList, [], true⟩ : CatRun).closed = true ∧
    (⟨"hi".toList, [], true⟩ : CatRun).written = "hi".toList := by
  have h : catLoop [RResp.rok, RResp.rok] ("hi".toList)
      [WResp.wok 1, WResp.wok 1] = some ⟨"hi".toList, [], true⟩ := by decide
  have hc := spec2proof_c6 ("hi".toList) _ _ _ h
  exact ⟨h, hc.1, hc.2.1 rfl⟩

/-- C7: a missing operand prints the two usage lines and returns without
touching any descriptor; a failed open prints exactly one line carrying
the path and the errno and returns (no descriptor was obtained, none is
closed); and on every completed path where the open succeeded the
descriptor is closed exactly once before `cmd_cat` returns. -/
theorem spec2proof_c7 (f : Str) (e : Nat) (openR : Except Nat Unit)
    (file : Str) (rs : List RResp) (ws : List WResp) :
    cmd_cat none openR file rs ws =
      some ⟨[catUsage1, catUsage2], [], 0, 0⟩ ∧
    cmd_cat (some f) (.error e) file rs ws =
      some ⟨[catOpenErr f e], [], 0, 0⟩ ∧
    (∀ res : CatResult, cmd_cat (some f) (.ok ()) file rs ws = some res →
      res.openCalls = 1 ∧ res.closeCalls = 1) := by
  refine ⟨rfl, rfl, ?_⟩
  intro res h
  simp only [cmd_cat] at h
  rcases hl : catLoop rs file ws with _ | r
  · rw [hl] at h; exact absurd h (by simp)
  · rw [hl] at h
    have hc := catLoop_closed _ _ _ _ hl
    cases h
    exact ⟨rfl, by simp [hc]⟩

/-- Witness for C7: a one-byte file, open succeeded, one read, one
write; the descriptor is closed exactly once. -/
theorem spec2proof_c7_witness :
    cmd_cat (some ("f".toList)) (.ok ()) ("a".toList)
      [RResp.rok, RResp.rok] [WResp.wok 1] =
      some ⟨[], "a".toList, 1, 1⟩ ∧
    (⟨[], "a".toList, 1, 1⟩ : CatResult).closeCalls = 1 := by
  have h : cmd_cat (some ("f".toList)) (.ok ()) ("a".toList)
      [RResp.rok, RResp.rok] [WResp.wok 1] =
      some ⟨[], "a".toList, 1, 1⟩ := by decide
  exact ⟨h,
    ((spec2proof_c7 ("f".toList) 0 (.ok ()) ("a".toList) _ _).2.2 _ h).2⟩

theorem loopOk_eof : loopOk ⟨[], [], .eofEnd⟩ := by
  refine ⟨rfl, Or.inl rfl, ?_, ?_, by simp⟩
  · constructor
    · intro h; exact absurd h (by simp)
    · rintro ⟨cmd, hc, _⟩; exact absurd hc (by simp)
  · intro cmd hm; exact absurd hm (by simp)

theorem loopOk_exit (cmd : Str) (hex : isExitCmd cmd = true) :
    loopOk ⟨[cmd], [farewell], .exited 0⟩ := by
  refine ⟨rfl, Or.inr rfl, ?_, ?_, by simp⟩
  · exact ⟨fun _ => ⟨cmd, rfl, hex⟩, fun _ => rfl⟩
  · intro c hm; exact absurd hm (by simp)

theorem loopOk_cons (cmd : Str) (hex : isExitCmd cmd = false) (r : LoopRun)
    (hr : loopOk r) : loopOk ⟨cmd :: r.cmds, r.bye, r.outcome⟩ := by
  obtain ⟨h1, h2, h3, h4, h5⟩ := hr
  refine ⟨h1, h2, ?_, ?_, h5⟩
  · cases hc : r.cmds with
    | nil =>
      constructor
      · intro ho
        obtain ⟨c, hcl, _⟩ := h3.mp ho
        rw [hc] at hcl
        exact absurd hcl (by simp)
      · rintro ⟨c, hcl, hi⟩
        simp only [hc, List.getLast?_singleton, Option.some.injEq] at hcl
        rw [← hcl] at hi
        rw [hex] at hi
        exact absurd hi (by simp)
    | cons c2 t =>
      rw [hc] at h3
      show r.outcome = .exited 0 ↔
        ∃ c, (cmd :: c2 :: t).getLast? = some c ∧ isExitCmd c = true
      rw [List.getLast?_cons_cons]
      exact h3
  · intro c hm
    cases hc : r.cmds with
    | nil =>
      rw [hc] at hm
      exact absurd hm (by simp)
    | cons c2 t =>
      rw [hc, List.dropLast_cons₂] at hm
      rcases List.mem_cons.mp hm with h | h
      · rw [h]; exact hex
      · apply h4
        rw [hc]
        exact h

theorem takeLine255_length_pos (n : Nat) (c : Char) (cs : List Char)
    (hn : n ≠ 0) : 0 < (takeLine255 n (c :: cs)).length := by
  cases n with
  | zero => exact absurd rfl hn
  | succ m =>
    rw [takeLine255]
    by_cases h : c = '\n' <;> simp [h]

theorem fgets255_rest_length (c : Char) (cs : List Char) :
    ((c :: cs).drop (takeLine255 255 (c :: cs)).length).length ≤ cs.length := by
  have hpos : 0 < (takeLine255 255 (c :: cs)).length :=
    takeLine255_length_pos 255 c cs (by omega)
  rw [List.length_drop]
  simp only [List.length_cons]
  omega

theorem shellGo_spec : ∀ (fuel : Nat) (input : List Char),
    input.length ≤ fuel → loopOk (shellGo fuel input) := by
  intro fuel
  induction fuel with
  | zero => intro input h; exact loopOk_eof
  | succ f ih =>
    intro input h
    cases input with
    | nil => exact loopOk_eof
    | cons c cs =>
      have hcs : cs.length ≤ f := by
        simp only [List.length_cons] at h
        omega
      simp only [shellGo, fgets255]
      by_cases hex : isExitCmd (stripNL (takeLine255 255 (c :: cs))) = true
      · rw [if_pos hex]
        exact loopOk_exit _ hex
      · rw [if_neg hex]
        exact loopOk_cons _ (by simpa using hex) _
          (ih _ (le_trans (fgets255_rest_length c cs) hcs))

theorem shellGo_fuel : ∀ (fuel fuel2 : Nat) (input : List Char),
    input.length ≤ fuel → input.length ≤ fuel2 →
    shellGo fuel input = shellGo fuel2 input := by
  intro fuel
  induction fuel with
  | zero =>
    intro fuel2 input h1 h2
    have hnil : input = [] := by
      cases input with
      | nil => rfl
      | cons c cs => simp at h1
    subst hnil
    cases fuel2 with
    | zero => rfl
    | succ f2 => rfl
  | succ f ih =>
    intro fuel2 input h1 h2
    cases input with
    | nil =>
      cases fuel2 with
      | zero => rfl
      | succ f2 => rfl
    | cons c cs =>
      cases fuel2 with
      | zero => simp at h2
      | succ f2 =>
        have hcs : cs.length ≤ f := by
          simp only [List.length_cons] at h1
          omega
        have hcs2 : cs.length ≤ f2 := by
          simp only [List.length_cons] at h2
          omega
        have hrest := fgets255_rest_length c cs
        simp only [shellGo, fgets255]
        rw [ih f2 _ (le_trans hrest hcs) (le_trans hrest hcs2)]

/-- C5: the read-eval loop ends only at end of input, with process exit
status 0, or through the `exit`|`quit` builtin, which prints the
farewell line and leaves with `exit(0)`; the outcome is `exited 0`
exactly when the last executed command was an exit command, every
executed command before the last one was not an exit command (each such
line, whatever its own failures, returned control to the prompt), and
the farewell is printed exactly on the exit path. -/
theorem spec2proof_c5 (input : List Char) :
    processStatus (shellRun input).outcome = 0 ∧
    ((shellRun input).outcome = .eofEnd ∨
      (shellRun input).outcome = .exited 0) ∧
    ((shellRun input).outcome = .exited 0 ↔
      ∃ cmd, (shellRun input).cmds.getLast? = some cmd ∧
        isExitCmd cmd = true) ∧
    (∀ cmd ∈ (shellRun input).cmds.dropLast, isExitCmd cmd = false) ∧
    (shellRun input).bye =
      (if (shellRun input).outcome = .exited 0 then [farewell] else []) :=
  shellGo_spec input.length input (le_refl _)

theorem takeLine255_eq_take : ∀ (n : Nat) (s : List Char),
    (∀ c ∈ s.take n, c ≠ '\n') → takeLine255 n s = s.take n := by
  intro n
  induction n with
  | zero => intro s h; rw [List.take_zero]; cases s <;> rfl
  | succ m ih =>
    intro s h
    cases s with
    | nil => rfl
    | cons c cs =>
      have hc : c ≠ '\n' := h c (by simp [List.take_succ_cons])
      rw [takeLine255, if_neg hc, List.take_succ_cons, ih cs]
      intro x hx
      exact h x (by simp [List.take_succ_cons, hx])

/-- C10: a physical input line longer than 255 bytes is neither rejected
nor reported: `fgets` returns exactly the first 255 bytes and leaves the
rest of the stream for later calls; no newline strip occurs on the bytes
read (no newline was among them), they are executed as one complete
command, and the loop then continues on the remaining bytes exactly as
if they were further input; in general the trailing newline is stripped
exactly when it is among the bytes a read returned. -/
theorem spec2proof_c10 (input : List Char)
    (hlen : 255 < input.length)
    (hnl : ∀ c ∈ input.take 255, c ≠ '\n') :
    fgets255 input = some (input.take 255, input.drop 255) ∧
    stripNL (input.take 255) = input.take 255 ∧
    (isExitCmd (input.take 255) = false →
      shellRun input =
        ⟨input.take 255 :: (shellRun (input.drop 255)).cmds,
         (shellRun (input.drop 255)).bye,
         (shellRun (input.drop 255)).outcome⟩) ∧
    (∀ chunk : Str, chunk.getLast? = some '\n' →
      stripNL chunk = chunk.dropLast) ∧
    (∀ chunk : Str, chunk.getLast? ≠ some '\n' → stripNL chunk = chunk) := by
  obtain ⟨c, cs, rfl⟩ : ∃ c cs, input = c :: cs := by
    cases input with
    | nil => simp at hlen
    | cons c cs => exact ⟨c, cs, rfl⟩
  have hchunk : takeLine255 255 (c :: cs) = (c :: cs).take 255 :=
    takeLine255_eq_take 255 (c :: cs) hnl
  have hlen255 : ((c :: cs).take 255).length = 255 := by
    rw [List.length_take]
    omega
  have hlast : ((c :: cs).take 255).getLast? ≠ some '\n' := by
    intro hq
    obtain ⟨h2, hval⟩ := List.mem_getLast?_eq_getLast (l := (c :: cs).take 255)
      (x := '\n') (Option.mem_def.mpr hq)
    have hmem := List.getLast_mem h2
    rw [← hval] at hmem
    exact hnl _ hmem rfl
  have hstrip : stripNL ((c :: cs).take 255) = (c :: cs).take 255 := by
    rw [stripNL, if_neg hlast]
  have hfg : fgets255 (c :: cs) =
      some ((c :: cs).take 255, (c :: cs).drop 255) := by
    show some (takeLine255 255 (c :: cs),
      (c :: cs).drop (takeLine255 255 (c :: cs)).length) = _
    rw [hchunk, hlen255]
  refine ⟨hfg, hstrip, ?_, ?_, ?_⟩
  · intro hex
    have hstep : shellRun (c :: cs) =
        if isExitCmd (stripNL (takeLine255 255 (c :: cs))) then
          ⟨[stripNL (takeLine255 255 (c :: cs))], [farewell], .exited 0⟩
        else
          ⟨stripNL (takeLine255 255 (c :: cs)) ::
            (shellGo cs.length
              ((c :: cs).drop (takeLine255 255 (c :: cs)).length)).cmds,
           (shellGo cs.length
              ((c :: cs).drop (takeLine255 255 (c :: cs)).length)).bye,
           (shellGo cs.length
              ((c :: cs).drop (takeLine255 255 (c :: cs)).length)).outcome⟩ :=
      rfl
    rw [hchunk, hstrip, hlen255, hex] at hstep
    have hfuel : shellGo cs.length ((c :: cs).drop 255) =
        shellRun ((c :: cs).drop 255) := by
      apply shellGo_fuel
      · rw [List.length_drop]
        simp only [List.length_cons]
        omega
      · exact le_refl _
    rw [hfuel] at hstep
    simpa using hstep
  · intro chunk hcl
    rw [stripNL, if_pos hcl]
  · intro chunk hcl
    rw [stripNL, if_neg hcl]

set_option maxRecDepth 100000 in
/-- Witness for C10 at a 256-byte line of `a` bytes: the first fgets
call returns the first 255 bytes and the last byte is left for the next
iteration. -/
theorem spec2proof_c10_witness :
    255 < (List.replicate 256 'a').length ∧
    fgets255 (List.replicate 256 'a') =
      some ((List.replicate 256 'a').take 255,
        (List.replicate 256 'a').drop 255) ∧
    stripNL ((List.replicate 256 'a').take 255) =
      (List.replicate 256 'a').take 255 := by
  have h := spec2proof_c10 (List.replicate 256 'a') (by decide) (by decide)
  exact ⟨by decide, h.1, h.2.1⟩

set_option maxRecDepth 10000 in
/-- Witness for C5: the session whose whole input is the line `exit`
executes one command and terminates through the exit builtin with
process status 0. -/
theorem spec2proof_c5_witness :
    shellRun ("exit\n".toList) = ⟨["exit".toList], [farewell], .exited 0⟩ ∧
    processStatus (shellRun ("exit\n".toList)).outcome = 0 := by
  exact ⟨by decide, (spec2proof_c5 ("exit\n".toList)).1⟩

/-- Witness for C8: ls with no argument on a directory that fails to
open with errno 2 prints exactly the one error line for the default
path. -/
theorem spec2proof_c8_witness :
    cmd_ls none (.error 2) = [lsErrLine dotPath 2] ∧
    (cmd_ls none (.error 2)).length = 1 := by
  exact ⟨(spec2proof_c8 none 2).1, (spec2proof_c8 none 2).2.1⟩

end Rux
